import Mathlib

/-!
Verification of the go-iost consensus and transaction-lifecycle core:
a shallow embedding, in Lean 4, of the parts of the repository that the
frozen claims talk about, with theorems settling each claim.

Conventions of the embedding:
* Go `int64` values are embedded as `Int`; where Go two's-complement
  wraparound matters the reduction modulo `2^64` is written explicitly
  (`wrap64`).
* Go integer division and remainder truncate toward zero, so they are
  embedded as `Int.tdiv` / `Int.tmod`.
* Byte slices are embedded as `List Nat` (each entry a byte value).
* A Go function that can panic is embedded with an explicit outcome type
  (`Outcome`), or with `Option` where the only abnormal exit is an
  out-of-range index.
* External collaborators whose code is not part of the repository slice
  (protobuf, the tx-pool implementation, the block-cache container, the
  cryptographic digest) are passed in as explicit function arguments, or
  modelled from the specification where the spec pins their behaviour down.
-/

namespace GoIost

/-- Transaction record, reduced to the fields the verified code touches:
`Time` (creation timestamp, ns), `Delay` (defer duration, ns) and
`ReferredTx` (hash bytes of the referred transaction; non-empty exactly for
the materialization of a deferred tx). -/
structure Tx where
  Time : Int
  Delay : Int
  ReferredTx : List Nat
deriving DecidableEq, Repr

/-- Modelled from the spec: "referred-tx hash (non-empty iff this is the
materialization of a deferred tx)"; `tx.IsDefer()` of the missing tx package
is therefore non-emptiness of `ReferredTx`. -/
def Tx.IsDefer (t : Tx) : Bool :=
  !t.ReferredTx.isEmpty

/-- Reduction of an `Int` into the two's-complement window of a Go `int64`,
`[-2^63, 2^63)`. -/
def wrap64 (x : Int) : Int :=
  (x + 2 ^ 63) % 2 ^ 64 - 2 ^ 63

/-- Go `bytes.Compare`: lexicographic byte-slice comparison returning
`-1`, `0` or `1`. -/
def bytesCompare : List Nat → List Nat → Int
  | [], [] => 0
  | [], _ :: _ => -1
  | _ :: _, [] => 1
  | a :: as, b :: bs =>
    if a < b then -1
    else if b < a then 1
    else bytesCompare as bs

/-- Modelled from the spec: the tx digest ("a deterministic digest over the
canonical encoding excluding signatures") of a defer-index entry, whose only
populated fields are `Time` and `ReferredTx`.  The canonical encoding is
taken as a fixed-width big-endian rendering of `Time` followed by the
referred-hash bytes; the digest itself is not in the repository slice, so it
is modelled as this injective encoding. -/
def idxHash (t : Tx) : List Nat :=
  (List.range 8).map (fun i => ((wrap64 t.Time).toNat / 256 ^ (7 - i)) % 256)
    ++ t.ReferredTx

/-- Embedding of `compareDeferTx` (src/core/txpool/defer.go): equal times
compare the entry hashes with `bytes.Compare`, otherwise the `int64`
difference of the times (with Go wraparound) is returned. -/
def compareDeferTx (a b : Tx) : Int :=
  if a.Time = b.Time then bytesCompare (idxHash a) (idxHash b)
  else wrap64 (a.Time - b.Time)

/-- Embedding of `DeferServer.toIndex`: the index entry of a delay tx has
the delay tx's hash as referred hash and trigger time `Time + Delay`,
computed with Go `int64` addition, which wraps on overflow (`Delay` is a
user-supplied field).  The delay tx's own digest is abstract (`hashTx`). -/
def toIndex (hashTx : Tx → List Nat) (delayTx : Tx) : Tx :=
  { Time := wrap64 (delayTx.Time + delayTx.Delay)
    Delay := 0
    ReferredTx := hashTx delayTx }

/-- State of the `DeferServer` that the verified operations touch: the
ordered pool of index entries and the next scheduled wake-up time. -/
structure DeferServer where
  pool : List Tx
  nextScheduleTime : Int
deriving Repr

/-- Embedding of `DeferServer.StoreDeferTx`: insert the index entry of the
delay tx into the pool and, exactly when the new entry's trigger time is
strictly earlier than the scheduled wake-up, move the schedule to it and
restart the ticker.  The returned flag records whether the ticker was
restarted. -/
def StoreDeferTx (hashTx : Tx → List Nat) (d : DeferServer) (delayTx : Tx) :
    DeferServer × Bool :=
  let idx := toIndex hashTx delayTx
  let pool := idx :: d.pool
  if idx.Time < d.nextScheduleTime then
    ({ pool := pool, nextScheduleTime := idx.Time }, true)
  else
    ({ pool := pool, nextScheduleTime := d.nextScheduleTime }, false)

/-- Result of `TxPImpl.AddDefertx` as the defer ticker distinguishes it:
success, the cache-full error, the two dedup errors, or any other error. -/
inductive AddDeferRes where
  | ok
  | cacheFull
  | dupPendingTx
  | dupChainTx
  | otherErr
deriving DecidableEq, Repr

/-- Go `math.MaxInt64`. -/
def INT64MAX : Int := 2 ^ 63 - 1

/-- Embedding of one processing pass of `DeferServer.deferTicker` (the body
of the `case <-time.After(scheduled)` arm): iterate the pool in order; stop
at the first entry whose trigger time is after `now`, scheduling at that
entry's time; call `AddDefertx` on each due entry's referred hash; on
`ErrCacheFull` stop, scheduling at that entry's time, without removing it;
on success or a dedup error remove the entry; on any other error keep the
entry and continue; when the iteration exhausts the pool schedule at
`math.MaxInt64`.  Returns the removed entries and the stored next schedule
time. -/
def deferTicker (now : Int) (addDefer : List Nat → AddDeferRes) :
    List Tx → List Tx × Int
  | [] => ([], INT64MAX)
  | e :: rest =>
    if now < e.Time then ([], e.Time)
    else
      match addDefer e.ReferredTx with
      | .cacheFull => ([], e.Time)
      | .ok => let r := deferTicker now addDefer rest; (e :: r.1, r.2)
      | .dupPendingTx => let r := deferTicker now addDefer rest; (e :: r.1, r.2)
      | .dupChainTx => let r := deferTicker now addDefer rest; (e :: r.1, r.2)
      | .otherErr => deferTicker now addDefer rest

/-- Specification-side description of one ticker pass, written from the
claim: an entry stops the pass when it is not yet due or when adding it
reports a full cache. -/
def stopsPass (now : Int) (addDefer : List Nat → AddDeferRes) (e : Tx) : Bool :=
  decide (now < e.Time) || decide (addDefer e.ReferredTx = .cacheFull)

/-- Specification-side removal test: a processed entry is removed exactly
when the add reported success or a duplicate (pending or chain). -/
def removesEntry (addDefer : List Nat → AddDeferRes) (e : Tx) : Bool :=
  decide (addDefer e.ReferredTx = .ok) ||
    decide (addDefer e.ReferredTx = .dupPendingTx) ||
    decide (addDefer e.ReferredTx = .dupChainTx)

/-- Specification-side result of one ticker pass: the entries removed are
those fully processed (before any stop) that the removal test accepts, and
the next schedule time is the first stopping entry's trigger time, or
`math.MaxInt64` when no entry stops the pass. -/
def deferTickerSpec (now : Int) (addDefer : List Nat → AddDeferRes)
    (entries : List Tx) : List Tx × Int :=
  ((entries.takeWhile (fun e => !stopsPass now addDefer e)).filter
      (removesEntry addDefer),
    match entries.find? (stopsPass now addDefer) with
    | some e => e.Time
    | none => INT64MAX)

/-- Database value as it reaches `dbValToString` (src/vm/v8vm/storage.go):
the Go `interface\x7b\x7d` restricted to the value kinds the store can yield.
`fixedDec` is the fixed-decimal pair (int64 value, decimal count); `other`
stands for any dynamic type outside the enumerated ones. -/
inductive DbVal where
  | i64 (v : Int)
  | str (s : String)
  | boolean (b : Bool)
  | bytes (bs : List Nat)
  | fixedDec (value : Int) (decimal : Nat)
  | other
deriving DecidableEq, Repr

/-- Go `errors.New("invalid db value type")`. -/
def ErrInvalidDbValType : String := "invalid db value type"

/-- Embedding of `dbValToString` (src/vm/v8vm/storage.go): the type switch
renders `int64`, `string`, `bool` and `[]byte` values and reports
`ErrInvalidDbValType` for every other dynamic type. -/
def dbValToString : DbVal → Except String String
  | .i64 v => .ok (toString v)
  | .str s => .ok s
  | .boolean b => .ok (if b then "true" else "false")
  | .bytes bs => .ok (String.mk (bs.map Char.ofNat))
  | .fixedDec _ _ => .error ErrInvalidDbValType
  | .other => .error ErrInvalidDbValType

/-- Contract record, reduced to the fields the verified code touches. -/
structure Contract where
  ID : String
  Code : String
deriving DecidableEq, Repr

/-- Outcome of a Go call that may panic: either a returned value or a
panic. -/
inductive Outcome (α : Type) where
  | returns (a : α)
  | panics
deriving DecidableEq, Repr

/-- Embedding of the static `DecodeContract` (src/core/contract/contract.go):
protobuf unmarshalling is the argument `unmarshal`; on success the function
returns `nil` (no contract), on failure it panics. -/
def DecodeContract (unmarshal : String → Except String Contract)
    (str : String) : Outcome (Option Contract) :=
  match unmarshal str with
  | .ok _ => .returns none
  | .error _ => .panics

/-- Embedding of the method form `(c *Contract) Decode` of the same file:
on success the receiver holds the unmarshalled contract and `nil` is
returned, on failure the unmarshalling error is returned. -/
def Decode (unmarshal : String → Except String Contract)
    (str : String) : Except String Contract :=
  match unmarshal str with
  | .ok c => .ok c
  | .error e => .error e

/-- Result of `txpool.AddTx` as the RPC server distinguishes it: the five
admission errors of the spec's admission set, or success (the switch's
`default` arm). -/
inductive TAddTx where
  | Success
  | TimeError
  | VerifyError
  | DupError
  | GasPriceError
  | CacheFullError
deriving DecidableEq, Repr

/-- Name of an admission result, as the RPC error message spells it. -/
def addTxKindName : TAddTx → String
  | .Success => "Success"
  | .TimeError => "TimeError"
  | .VerifyError => "VerifyError"
  | .DupError => "DupError"
  | .GasPriceError => "GasPriceError"
  | .CacheFullError => "CacheFullError"

/-- Embedding of `GRPCServer.SendRawTx` (rpc server source): decode the raw
bytes (the decoding outcome is the argument `decode`); on a decoding error
return it; otherwise hand the tx to the pool's `AddTx` (state-passing
argument `addTx`) and map each of the five admission errors to the
`"tx err:<kind>"` message; on the default arm answer with the tx's hash.
The chain state `st` is threaded explicitly. -/
def SendRawTx {σ : Type} (decode : Except String Tx)
    (addTx : σ → Tx → TAddTx × σ) (hashTx : Tx → List Nat) (st : σ) :
    Except String (List Nat) × σ :=
  match decode with
  | .error e => (.error e, st)
  | .ok trx =>
    let r := addTx st trx
    match r.1 with
    | .TimeError => (.error "tx err:TimeError", r.2)
    | .VerifyError => (.error "tx err:VerifyError", r.2)
    | .DupError => (.error "tx err:DupError", r.2)
    | .GasPriceError => (.error "tx err:GasPriceError", r.2)
    | .CacheFullError => (.error "tx err:CacheFullError", r.2)
    | .Success => (.ok (hashTx trx), r.2)

/-- Go constant `second2nanosecond` of src/consensus/pob/properties.go. -/
def second2nanosecond : Int := 1000000000

/-- Static PoB property record (src/consensus/pob/properties.go), reduced
to the fields the verified code reads.  The per-witness watermark table is
handled separately (`updateWaterMark`). -/
structure StaticProperty where
  NumberOfWitnesses : Int
  WitnessList : List String
deriving DecidableEq, Repr

/-- Go slice indexing with an `int64` index: a negative or out-of-range
index panics, embedded as `none`. -/
def goIndex (l : List String) (i : Int) : Option String :=
  if 0 ≤ i then l.get? i.toNat else none

/-- Embedding of `witnessOfSlot` (src/consensus/pob/properties.go): index
the witness list at `slot % NumberOfWitnesses` (Go `%` truncates, hence
`Int.tmod`). -/
def witnessOfSlot (prop : StaticProperty) (slot : Int)
    (witnessList : List String) : Option String :=
  goIndex witnessList (slot.tmod prop.NumberOfWitnesses)

/-- Embedding of `witnessOfSec`: the slot of a second count is
`sec / SlotLength`.  The constant `common.SlotLength` lives outside the
repository slice and is passed as the argument `slotLength`. -/
def witnessOfSec (prop : StaticProperty) (slotLength : Int) (sec : Int)
    (witnessList : List String) : Option String :=
  witnessOfSlot prop (sec.tdiv slotLength) witnessList

/-- Embedding of `witnessOfNanoSec`: seconds are
`nanosec / second2nanosecond`. -/
def witnessOfNanoSec (prop : StaticProperty) (slotLength : Int) (nanosec : Int)
    (witnessList : List String) : Option String :=
  witnessOfSec prop slotLength (nanosec.tdiv second2nanosecond) witnessList

/-- Block head, reduced to the fields the verified code touches. -/
structure BlockHead where
  Number : Int
  Witness : String
  Time : Int
deriving DecidableEq, Repr

/-- Block: a head and the ordered transactions. -/
structure Block where
  Head : BlockHead
  Txs : List Tx
deriving DecidableEq, Repr

/-- Answer of `txPool.ExistTxs(hash, parent)`: found in the pending set,
found on the ancestor chain, or not found. -/
inductive ExistStatus where
  | FoundPending
  | FoundChain
  | NotFound
deriving DecidableEq, Repr

/-- Errors `verifyBlock` (src/consensus/pob/properties.go) can return:
its own named errors, plus the errors handed through from the head
verifier, the chain lookup of a referred tx, the defer check and the final
re-execution. -/
inductive PobError where
  | errWitness
  | errTxDup
  | errTxSignature
  | headErr (e : String)
  | getTxErr (e : String)
  | deferErr (e : String)
  | verifyErr (e : String)
deriving DecidableEq, Repr

/-- Per-transaction body of the `verifyBlock` loop for a non-base tx: a tx
found on the ancestor chain is a duplicate; a tx found pending is accepted
outright; otherwise its own signature must verify, and a deferred tx's
referred tx must be fetchable from the chain and must validate against
it.  The pool lookup, signature check, chain lookup and defer check are the
external collaborators `existTxs`, `verifySelf`, `getTx`, `verifyDefer`. -/
def checkTx (existTxs : Tx → ExistStatus) (verifySelf : Tx → Option String)
    (getTx : List Nat → Except String Tx)
    (verifyDefer : Tx → Tx → Option String) (t : Tx) : Option PobError :=
  match existTxs t with
  | .FoundChain => some .errTxDup
  | .FoundPending => none
  | .NotFound =>
    match verifySelf t with
    | some _ => some .errTxSignature
    | none =>
      if t.IsDefer then
        match getTx t.ReferredTx with
        | .error e => some (.getTxErr e)
        | .ok referredTx =>
          match verifyDefer t referredTx with
          | some e => some (.deferErr e)
          | none => none
      else none

/-- First error of the per-transaction checks over a list of txs. -/
def checkTxs (existTxs : Tx → ExistStatus) (verifySelf : Tx → Option String)
    (getTx : List Nat → Except String Tx)
    (verifyDefer : Tx → Tx → Option String) : List Tx → Option PobError
  | [] => none
  | t :: ts =>
    match checkTx existTxs verifySelf getTx verifyDefer t with
    | some e => some e
    | none => checkTxs existTxs verifySelf getTx verifyDefer ts

/-- Stage of `verifyBlock` after the head and witness checks: the
per-transaction loop over `blk.Txs`, which skips position 0 (the base tx),
followed by the re-execution (`v.Verify`, outside the slice, its result the
argument `verifyRes`). -/
def verifyBlockRest (existTxs : Tx → ExistStatus)
    (verifySelf : Tx → Option String) (getTx : List Nat → Except String Tx)
    (verifyDefer : Tx → Tx → Option String) (verifyRes : Option String)
    (txs : List Tx) : Option PobError :=
  match
    (match txs with
     | [] => none
     | _ :: rest => checkTxs existTxs verifySelf getTx verifyDefer rest)
  with
  | some e => some e
  | none => verifyRes.map .verifyErr

/-- Embedding of `verifyBlock` (src/consensus/pob/properties.go): head
verification first (`cverifier.VerifyBlockHead`, outside the slice, result
`headCheck`); then the witness-schedule check on the head's time; then the
per-transaction loop and re-execution (`verifyBlockRest`).  The outer
`Option` is the Go panic of an out-of-range witness-list index; the inner
`Option PobError` is the returned error, `none` meaning the block is
accepted. -/
def verifyBlock (prop : StaticProperty) (slotLength : Int)
    (headCheck : Option String) (existTxs : Tx → ExistStatus)
    (verifySelf : Tx → Option String) (getTx : List Nat → Except String Tx)
    (verifyDefer : Tx → Tx → Option String) (verifyRes : Option String)
    (blk : Block) : Option (Option PobError) :=
  match headCheck with
  | some e => some (some (.headErr e))
  | none =>
    match witnessOfNanoSec prop slotLength blk.Head.Time prop.WitnessList with
    | none => none
    | some w =>
      if w ≠ blk.Head.Witness then some (some .errWitness)
      else
        some (verifyBlockRest existTxs verifySelf getTx verifyDefer
          verifyRes blk.Txs)

/-- Block-cache node as `calculateConfirm` reads it: the block number and
the witness watermark recorded at link time. -/
structure BCNode where
  Number : Int
  ConfirmUntil : Int
deriving DecidableEq, Repr

/-- Update of the Go map `confirmUntilMap` by one walked node: a counted
node (one whose `ConfirmUntil` has been reached by its number) increments
the entry at its `ConfirmUntil`.  A missing Go map entry reads as zero, so
the map is a total function. -/
def cmapUpd (cmap : Int → Int) (n : BCNode) : Int → Int :=
  if n.ConfirmUntil ≤ n.Number then
    fun k => if k = n.ConfirmUntil then cmap k + 1 else cmap k
  else cmap

/-- Embedding of the walk of `calculateConfirm`
(src/consensus/pob/properties.go): the pointer walk from `node` down to
(excluding) the linked root is the list argument; `cmap` and `cnum` are the
accumulated `confirmUntilMap` and `confirmNum`.  Each step counts the node
when `ConfirmUntil ≤ Number`, answers the node once the count reaches the
limit, and otherwise descends after subtracting the map entry at the
node's number. -/
def calculateConfirmAux (confirmLimit : Int) :
    List BCNode → (Int → Int) → Int → Option BCNode
  | [], _, _ => none
  | n :: rest, cmap, cnum =>
    let cmap' := cmapUpd cmap n
    let cnum' := if n.ConfirmUntil ≤ n.Number then cnum + 1 else cnum
    if confirmLimit ≤ cnum' then some n
    else calculateConfirmAux confirmLimit rest cmap' (cnum' - cmap' n.Number)

/-- Embedding of `calculateConfirm`: the confirm limit is
`NumberOfWitnesses*2/3 + 1` (Go division truncates) and the walk starts
with an empty map and a zero count. -/
def calculateConfirm (numberOfWitnesses : Int) (path : List BCNode) :
    Option BCNode :=
  calculateConfirmAux ((numberOfWitnesses * 2).tdiv 3 + 1) path (fun _ => 0) 0

/-- Specification-side count of the counted nodes of a walked segment:
those whose `ConfirmUntil` is at most their own number. -/
def countedIn (l : List BCNode) : Int :=
  (l.countP (fun n => decide (n.ConfirmUntil ≤ n.Number)) : Int)

/-- Specification-side count of the counted nodes of a walked segment whose
`ConfirmUntil` equals `x`. -/
def subIn (l : List BCNode) (x : Int) : Int :=
  (l.countP (fun n =>
    decide (n.ConfirmUntil ≤ n.Number) && decide (n.ConfirmUntil = x)) : Int)

/-- Number of the walked node at position `i` (0 when out of range). -/
def numAt (l : List BCNode) (i : Nat) : Int :=
  ((l.get? i).map BCNode.Number).getD 0

/-- Specification-side running count at the check of walked position `i`,
generalized by an initial map `m`: the counted nodes of the walked segment
up to and including `i`, minus, for every position `l` already descended
past, the contributions at that position's number (the initial map's entry
plus the counted nodes up to `l` whose `ConfirmUntil` equals it). -/
def runningCount (m : Int → Int) (l : List BCNode) (i : Nat) : Int :=
  countedIn (l.take (i + 1)) -
    ∑ k ∈ Finset.range i, (m (numAt l k) + subIn (l.take (k + 1)) (numAt l k))

/-- Specification-side confirmation result, generalized by an initial map
and count: the first walked position whose running count reaches the
limit, or none. -/
def confirmSpecG (confirmLimit : Int) (m : Int → Int) (c : Int)
    (l : List BCNode) : Option BCNode :=
  ((List.range l.length).find?
    (fun i => decide (confirmLimit ≤ c + runningCount m l i))).bind l.get?

/-- Specification-side confirmation result, written from the claim: the
first walked node at which the running count (counted nodes of the
traversed suffix, minus the contributions already descended past) reaches
`NumberOfWitnesses*2/3 + 1`, or none when the walk reaches the root
first. -/
def confirmSpec (numberOfWitnesses : Int) (l : List BCNode) : Option BCNode :=
  confirmSpecG ((numberOfWitnesses * 2).tdiv 3 + 1) (fun _ => 0) 0 l

/-- Sample static property: one witness, "a". -/
def prop1 : StaticProperty := ⟨1, ["a"]⟩

/-- Sample block at number 1, witness "a", time 0, no transactions. -/
def blk1 : Block := ⟨⟨1, "a", 0⟩, []⟩

/-- Sample pool lookup finding nothing. -/
def noExist : Tx → ExistStatus := fun _ => .NotFound

/-- Sample signature check accepting every tx. -/
def noSelfErr : Tx → Option String := fun _ => none

/-- Sample chain lookup finding nothing. -/
def noGetTx : List Nat → Except String Tx := fun _ => .error "not found"

/-- Sample defer check accepting every pair. -/
def noDeferErr : Tx → Tx → Option String := fun _ _ => none

/-- Sample transaction used to witness the RPC admission theorem. -/
def sampleTx : Tx := ⟨1, 0, []⟩

/-- Sample pool behaviour that rejects every tx with `TimeError` and keeps
the state. -/
def rejectTimeErr : Nat → Tx → TAddTx × Nat := fun s _ => (TAddTx.TimeError, s)

/-- Sample digest assigning every tx the empty byte string. -/
def emptyHash : Tx → List Nat := fun _ => []

/-- Embedding of `updateWaterMark` (src/consensus/pob/properties.go): the
node's `ConfirmUntil` is set to the witness's current watermark, and the
watermark is raised to `number + 1` when the node's number has reached it.
The watermark table is a Go map with zero default, embedded as a function;
the result is the assigned `ConfirmUntil` and the updated table. -/
def updateWaterMark (wm : String → Int) (w : String) (number : Int) :
    Int × (String → Int) :=
  let confirmUntil := wm w
  if wm w ≤ number then
    (confirmUntil, fun x => if x = w then number + 1 else wm x)
  else
    (confirmUntil, wm)

/-- Linking a sequence of blocks of one witness: run `updateWaterMark` on
each block number in order and collect the assigned `ConfirmUntil`
values. -/
def linkSeq (wm : String → Int) (w : String) : List Int → List Int
  | [] => []
  | n :: ns =>
    (updateWaterMark wm w n).1 :: linkSeq (updateWaterMark wm w n).2 w ns

/-- Watermark table with every witness at zero (a fresh Go map). -/
def zeroWM : String → Int := fun _ => 0

theorem bytesCompare_append_left (p x y : List Nat) :
    bytesCompare (p ++ x) (p ++ y) = bytesCompare x y := by
  induction p with
  | nil => rfl
  | cons a p ih => simp [bytesCompare, ih]

theorem wrap64_eq_self (x : Int) (h0 : -2 ^ 63 ≤ x) (h1 : x < 2 ^ 63) :
    wrap64 x = x := by
  unfold wrap64
  rw [Int.emod_eq_of_lt (by omega) (by omega)]
  omega

theorem compareDeferTx_eq_time (a b : Tx) (h : a.Time = b.Time) :
    compareDeferTx a b = bytesCompare a.ReferredTx b.ReferredTx := by
  have henc : (List.range 8).map
      (fun i => ((wrap64 a.Time).toNat / 256 ^ (7 - i)) % 256) =
      (List.range 8).map
      (fun i => ((wrap64 b.Time).toNat / 256 ^ (7 - i)) % 256) := by rw [h]
  simp only [compareDeferTx, if_pos h, idxHash, henc, bytesCompare_append_left]

theorem compareDeferTx_lt_iff (a b : Tx)
    (ha0 : 0 ≤ a.Time) (ha1 : a.Time < 2 ^ 63)
    (hb0 : 0 ≤ b.Time) (hb1 : b.Time < 2 ^ 63) :
    compareDeferTx a b < 0 ↔
      a.Time < b.Time ∨
        a.Time = b.Time ∧ bytesCompare a.ReferredTx b.ReferredTx < 0 := by
  by_cases h : a.Time = b.Time
  · rw [compareDeferTx_eq_time a b h]
    simp [h]
  · unfold compareDeferTx
    rw [if_neg h, wrap64_eq_self _ (by omega) (by omega)]
    omega

theorem compareDeferTx_le_time (a b : Tx)
    (ha0 : 0 ≤ a.Time) (ha1 : a.Time < 2 ^ 63)
    (hb0 : 0 ≤ b.Time) (hb1 : b.Time < 2 ^ 63)
    (h : compareDeferTx a b ≤ 0) : a.Time ≤ b.Time := by
  by_cases he : a.Time = b.Time
  · omega
  · unfold compareDeferTx at h
    rw [if_neg he, wrap64_eq_self _ (by omega) (by omega)] at h
    omega

/-- C4: in the DeferServer ticker pass, every due entry is offered to the
txpool's add-defer with its referred hash; a cache-full answer stops the
pass scheduling at that entry's trigger time without removing it; success
or a duplicate (pending or chain) answer removes the entry and the pass
continues; and when the iteration exhausts the pool the next schedule time
becomes the maximum int64.  Stated as: the embedded ticker pass equals the
specification-side description for every pool, clock and add-defer
behaviour. -/
theorem deferTicker_matches_spec (now : Int) (addDefer : List Nat → AddDeferRes)
    (entries : List Tx) :
    deferTicker now addDefer entries = deferTickerSpec now addDefer entries := by
  induction entries with
  | nil => rfl
  | cons e rest ih =>
    by_cases hdue : now < e.Time
    · simp [deferTicker, deferTickerSpec, stopsPass, hdue]
    · cases hadd : addDefer e.ReferredTx <;>
        simp [deferTicker, deferTickerSpec, stopsPass, removesEntry, hdue,
          hadd, ih, deferTickerSpec]

/-- C5: the deferred-tx index comparator orders entries first by trigger
time ascending and, for equal trigger times, by the referred-tx hash bytes,
so the head of a sorted iteration has the earliest trigger time; and
`StoreDeferTx` inserts the index entry of the delay tx (trigger time =
creation time + delay) and restarts the ticker exactly when that trigger
time is strictly earlier than the scheduled next wake-up.  The trigger
sum is computed with wrapping Go `int64` addition, so the store conjuncts
carry the same validity bounds as the comparator conjuncts: the sum of the
creation time and the delay stays inside the `int64` range. -/
theorem deferIndex_order_and_store (a b delayTx : Tx) (hashTx : Tx → List Nat)
    (d : DeferServer) (l : List Tx)
    (ha0 : 0 ≤ a.Time) (ha1 : a.Time < 2 ^ 63)
    (hb0 : 0 ≤ b.Time) (hb1 : b.Time < 2 ^ 63)
    (hd0 : 0 ≤ delayTx.Time + delayTx.Delay)
    (hd1 : delayTx.Time + delayTx.Delay < 2 ^ 63) :
    (compareDeferTx a b < 0 ↔
      a.Time < b.Time ∨
        a.Time = b.Time ∧ bytesCompare a.ReferredTx b.ReferredTx < 0)
    ∧ (a.Time = b.Time →
        compareDeferTx a b = bytesCompare a.ReferredTx b.ReferredTx)
    ∧ (List.Sorted (fun x y => compareDeferTx x y ≤ 0) (a :: l) →
        (∀ x ∈ l, 0 ≤ x.Time ∧ x.Time < 2 ^ 63) →
        ∀ x ∈ l, a.Time ≤ x.Time)
    ∧ (toIndex hashTx delayTx).Time = delayTx.Time + delayTx.Delay
    ∧ toIndex hashTx delayTx ∈ (StoreDeferTx hashTx d delayTx).1.pool
    ∧ ((StoreDeferTx hashTx d delayTx).2 = true ↔
        delayTx.Time + delayTx.Delay < d.nextScheduleTime)
    ∧ (StoreDeferTx hashTx d delayTx).1.nextScheduleTime =
        (if delayTx.Time + delayTx.Delay < d.nextScheduleTime then
          delayTx.Time + delayTx.Delay else d.nextScheduleTime) := by
  have hw : wrap64 (delayTx.Time + delayTx.Delay) =
      delayTx.Time + delayTx.Delay :=
    wrap64_eq_self _ (by omega) hd1
  refine ⟨compareDeferTx_lt_iff a b ha0 ha1 hb0 hb1,
    compareDeferTx_eq_time a b, ?_, hw, ?_, ?_, ?_⟩
  · intro hs hr x hx
    exact compareDeferTx_le_time a x ha0 ha1 (hr x hx).1 (hr x hx).2
      ((List.sorted_cons.mp hs).1 x hx)
  · unfold StoreDeferTx
    dsimp only
    split <;> exact List.mem_cons_self _ _
  · unfold StoreDeferTx toIndex
    dsimp only
    rw [hw]
    split <;> simp_all
  · unfold StoreDeferTx toIndex
    dsimp only
    rw [hw]
    split <;> simp_all

/-- Witness for the deferred-tx index theorem at concrete inputs: entries
with times 1 and 2, a delay tx with creation time 3 and delay 4, a server
scheduled at 100, and an empty tail. -/
theorem deferIndex_order_and_store_witness :
    (compareDeferTx ⟨1, 0, []⟩ ⟨2, 0, []⟩ < 0 ↔
      (⟨1, 0, []⟩ : Tx).Time < (⟨2, 0, []⟩ : Tx).Time ∨
        (⟨1, 0, []⟩ : Tx).Time = (⟨2, 0, []⟩ : Tx).Time ∧
          bytesCompare (⟨1, 0, []⟩ : Tx).ReferredTx
            (⟨2, 0, []⟩ : Tx).ReferredTx < 0)
    ∧ ((⟨1, 0, []⟩ : Tx).Time = (⟨2, 0, []⟩ : Tx).Time →
        compareDeferTx ⟨1, 0, []⟩ ⟨2, 0, []⟩ =
          bytesCompare (⟨1, 0, []⟩ : Tx).ReferredTx
            (⟨2, 0, []⟩ : Tx).ReferredTx)
    ∧ (List.Sorted (fun x y => compareDeferTx x y ≤ 0)
          ((⟨1, 0, []⟩ : Tx) :: []) →
        (∀ x ∈ ([] : List Tx), 0 ≤ x.Time ∧ x.Time < 2 ^ 63) →
        ∀ x ∈ ([] : List Tx), (⟨1, 0, []⟩ : Tx).Time ≤ x.Time)
    ∧ (toIndex (fun _ => []) ⟨3, 4, []⟩).Time =
        (⟨3, 4, []⟩ : Tx).Time + (⟨3, 4, []⟩ : Tx).Delay
    ∧ toIndex (fun _ => []) ⟨3, 4, []⟩ ∈
        (StoreDeferTx (fun _ => []) ⟨[], 100⟩ ⟨3, 4, []⟩).1.pool
    ∧ ((StoreDeferTx (fun _ => []) ⟨[], 100⟩ ⟨3, 4, []⟩).2 = true ↔
        (⟨3, 4, []⟩ : Tx).Time + (⟨3, 4, []⟩ : Tx).Delay <
          (⟨[], 100⟩ : DeferServer).nextScheduleTime)
    ∧ (StoreDeferTx (fun _ => []) ⟨[], 100⟩ ⟨3, 4, []⟩).1.nextScheduleTime =
        (if (⟨3, 4, []⟩ : Tx).Time + (⟨3, 4, []⟩ : Tx).Delay <
            (⟨[], 100⟩ : DeferServer).nextScheduleTime then
          (⟨3, 4, []⟩ : Tx).Time + (⟨3, 4, []⟩ : Tx).Delay
        else (⟨[], 100⟩ : DeferServer).nextScheduleTime) :=
  deferIndex_order_and_store ⟨1, 0, []⟩ ⟨2, 0, []⟩ ⟨3, 4, []⟩ (fun _ => [])
    ⟨[], 100⟩ [] (by decide) (by decide) (by decide) (by decide) (by decide)
    (by decide)

/-- Counterexample for C7: a fixed-decimal value is inside the claimed
closed sum, yet `dbValToString` reports the invalid-type error on it
instead of succeeding. -/
theorem dbValToString_fixedDec_fails :
    dbValToString (DbVal.fixedDec 1 2) = Except.error ErrInvalidDbValType :=
  rfl

/-- C7 (amended): `dbValToString` succeeds exactly on the four-kind sum
int64 / string / bool / bytes, and returns the `ErrInvalidDbValType` error
exactly for fixed-decimal values and every value outside the enumerated
kinds. -/
theorem dbValToString_ok_iff (v : DbVal) :
    ((∃ s, dbValToString v = Except.ok s) ↔
      (∃ x, v = DbVal.i64 x) ∨ (∃ s, v = DbVal.str s) ∨
        (∃ b, v = DbVal.boolean b) ∨ (∃ bs, v = DbVal.bytes bs))
    ∧ (dbValToString v = Except.error ErrInvalidDbValType ↔
        (∃ x d, v = DbVal.fixedDec x d) ∨ v = DbVal.other) := by
  cases v <;> simp [dbValToString]

/-- C10: the static `DecodeContract` never yields a decoded contract: it
returns `nil` exactly when unmarshalling succeeds and panics exactly when
unmarshalling fails, while the method form `Decode` does yield the
unmarshalled contract on success. -/
theorem DecodeContract_never_yields (unmarshal : String → Except String Contract)
    (str : String) :
    (∀ c, DecodeContract unmarshal str ≠ Outcome.returns (some c))
    ∧ (DecodeContract unmarshal str = Outcome.returns none ↔
        ∃ c, unmarshal str = Except.ok c)
    ∧ (DecodeContract unmarshal str = Outcome.panics ↔
        ∃ e, unmarshal str = Except.error e)
    ∧ (∀ c, unmarshal str = Except.ok c → Decode unmarshal str = Except.ok c) := by
  cases h : unmarshal str <;> simp [DecodeContract, Decode, h]

/-- C6: `SendRawTx` returns an error exactly when decoding fails or the
pool's `AddTx` answers one of the five admission errors; the error message
names the admission error kind; on success the response carries the tx's
hash; and a rejected submission leaves the chain state unchanged (the
admission errors are local, which is the hypothesis `hlocal` on the pool). -/
theorem SendRawTx_admission {σ : Type} (decode : Except String Tx)
    (addTx : σ → Tx → TAddTx × σ) (hashTx : Tx → List Nat) (st : σ)
    (hlocal : ∀ s t, (addTx s t).1 ≠ TAddTx.Success → (addTx s t).2 = s) :
    ((∃ e, (SendRawTx decode addTx hashTx st).1 = Except.error e) ↔
      (∃ e, decode = Except.error e) ∨
        ∃ t, decode = Except.ok t ∧ (addTx st t).1 ≠ TAddTx.Success)
    ∧ (∀ t, decode = Except.ok t → (addTx st t).1 ≠ TAddTx.Success →
        (SendRawTx decode addTx hashTx st).1 =
          Except.error ("tx err:" ++ addTxKindName (addTx st t).1))
    ∧ (∀ t, decode = Except.ok t → (addTx st t).1 = TAddTx.Success →
        (SendRawTx decode addTx hashTx st).1 = Except.ok (hashTx t))
    ∧ ((∃ e, (SendRawTx decode addTx hashTx st).1 = Except.error e) →
        (SendRawTx decode addTx hashTx st).2 = st) := by
  cases hd : decode with
  | error e => simp [SendRawTx, hd]
  | ok t =>
    have hst : (addTx st t).1 ≠ TAddTx.Success → (addTx st t).2 = st :=
      hlocal st t
    cases har : (addTx st t).1 <;>
      simp [SendRawTx, hd, har, addTxKindName, har ▸ hst]

theorem updateWaterMark_fst (wm : String → Int) (w : String) (n : Int) :
    (updateWaterMark wm w n).1 = wm w := by
  unfold updateWaterMark
  dsimp only
  split <;> rfl

theorem updateWaterMark_le (wm : String → Int) (w : String) (n : Int) :
    wm w ≤ (updateWaterMark wm w n).2 w := by
  unfold updateWaterMark
  dsimp only
  split
  · simp only [if_pos rfl]
    omega
  · exact le_refl _

theorem linkSeq_chain (w : String) :
    ∀ (ns : List Int) (wm : String → Int),
      List.Chain' (· ≤ ·) (linkSeq wm w ns) := by
  intro ns
  induction ns with
  | nil => intro wm; simp [linkSeq]
  | cons n ns ih =>
    intro wm
    rw [linkSeq, List.chain'_cons']
    refine ⟨?_, ih _⟩
    intro y hy
    cases ns with
    | nil => simp [linkSeq] at hy
    | cons m ms =>
      rw [linkSeq] at hy
      simp only [List.head?_cons, Option.mem_def, Option.some.injEq] at hy
      subst hy
      rw [updateWaterMark_fst, updateWaterMark_fst]
      exact updateWaterMark_le _ _ _

/-- C3: each `updateWaterMark` call assigns the node the witness's current
watermark as `ConfirmUntil` and then leaves the watermark unchanged or
raises it to `number + 1`; the watermark of the touched witness never
decreases and other witnesses' entries are untouched; consequently the
`ConfirmUntil` values assigned along a sequence of blocks of witness `w`
linked in non-decreasing number order are monotone non-decreasing. -/
theorem updateWaterMark_monotone (wm : String → Int) (w w' : String)
    (n : Int) (ns : List Int) (hsorted : List.Chain' (· ≤ ·) ns) :
    (updateWaterMark wm w n).1 = wm w
    ∧ ((updateWaterMark wm w n).2 w = wm w ∨
        (updateWaterMark wm w n).2 w = n + 1)
    ∧ wm w ≤ (updateWaterMark wm w n).2 w
    ∧ (w' ≠ w → (updateWaterMark wm w n).2 w' = wm w')
    ∧ List.Chain' (· ≤ ·) (linkSeq wm w ns) := by
  refine ⟨updateWaterMark_fst wm w n, ?_, updateWaterMark_le wm w n, ?_,
    linkSeq_chain w ns wm⟩
  · unfold updateWaterMark
    dsimp only
    split
    · right; simp
    · left; rfl
  · intro hne
    unfold updateWaterMark
    dsimp only
    split
    · simp [hne]
    · rfl

/-- Witness for the watermark theorem at concrete inputs: a fresh table,
witnesses "a" and "b", block number 5, and the sorted sequence [1, 2]. -/
theorem updateWaterMark_monotone_witness :
    (updateWaterMark zeroWM "a" 5).1 = zeroWM "a"
    ∧ ((updateWaterMark zeroWM "a" 5).2 "a" = zeroWM "a" ∨
        (updateWaterMark zeroWM "a" 5).2 "a" = 5 + 1)
    ∧ zeroWM "a" ≤ (updateWaterMark zeroWM "a" 5).2 "a"
    ∧ ("b" ≠ "a" → (updateWaterMark zeroWM "a" 5).2 "b" = zeroWM "b")
    ∧ List.Chain' (· ≤ ·) (linkSeq zeroWM "a" [1, 2]) :=
  updateWaterMark_monotone zeroWM "a" "b" 5 [1, 2]
    (by norm_num [List.chain'_cons])

theorem tdiv_tdiv_of_nonneg (t a b : Int) (ht : 0 ≤ t) (ha : 0 ≤ a)
    (hb : 0 ≤ b) : (t.tdiv a).tdiv b = t.tdiv (a * b) := by
  obtain ⟨tn, rfl⟩ := Int.eq_ofNat_of_zero_le ht
  obtain ⟨an, rfl⟩ := Int.eq_ofNat_of_zero_le ha
  obtain ⟨bn, rfl⟩ := Int.eq_ofNat_of_zero_le hb
  simp only [← Int.ofNat_mul, ← Int.ofNat_tdiv]
  rw [Nat.div_div_eq_div_mul]

theorem witnessOfSlot_get (prop : StaticProperty) (s : Int) (wl : List String)
    (hs : 0 ≤ s) (hlen : (wl.length : Int) = prop.NumberOfWitnesses)
    (h0 : wl ≠ []) :
    witnessOfSlot prop s wl = wl.get? (s.toNat % wl.length)
    ∧ (witnessOfSlot prop s wl).isSome = true := by
  obtain ⟨sn, rfl⟩ := Int.eq_ofNat_of_zero_le hs
  have hlpos : 0 < wl.length := List.length_pos.mpr h0
  have hmain : witnessOfSlot prop (sn : Int) wl =
      wl.get? (((sn : Int)).toNat % wl.length) := by
    unfold witnessOfSlot goIndex
    rw [← hlen, ← Int.ofNat_tmod, if_pos (Int.natCast_nonneg _),
      Int.toNat_ofNat, Int.toNat_ofNat]
  refine ⟨hmain, ?_⟩
  rw [hmain, Int.toNat_ofNat]
  have hm : sn % wl.length < wl.length := Nat.mod_lt _ hlpos
  cases h : wl.get? (sn % wl.length) with
  | none => exact absurd (List.get?_eq_none.mp h) (by omega)
  | some w => rfl

theorem checkTx_ne_errWitness (existTxs : Tx → ExistStatus)
    (verifySelf : Tx → Option String) (getTx : List Nat → Except String Tx)
    (verifyDefer : Tx → Tx → Option String) (t : Tx) :
    checkTx existTxs verifySelf getTx verifyDefer t ≠
      some PobError.errWitness := by
  unfold checkTx
  cases h1 : existTxs t with
  | FoundChain => simp
  | FoundPending => simp
  | NotFound =>
    cases h2 : verifySelf t with
    | some e => simp
    | none =>
      by_cases hd : t.IsDefer
      · simp only [hd, if_true]
        cases h3 : getTx t.ReferredTx with
        | error e => simp
        | ok rt =>
          cases h4 : verifyDefer t rt <;> simp [h4]
      · simp [hd]

theorem checkTxs_ne_errWitness (existTxs : Tx → ExistStatus)
    (verifySelf : Tx → Option String) (getTx : List Nat → Except String Tx)
    (verifyDefer : Tx → Tx → Option String) (ts : List Tx) :
    checkTxs existTxs verifySelf getTx verifyDefer ts ≠
      some PobError.errWitness := by
  induction ts with
  | nil => simp [checkTxs]
  | cons t ts ih =>
    unfold checkTxs
    cases h : checkTx existTxs verifySelf getTx verifyDefer t with
    | none => simpa only [h] using ih
    | some e =>
      have hne := checkTx_ne_errWitness existTxs verifySelf getTx verifyDefer t
      rw [h] at hne
      simp only [h]
      simpa using hne

theorem verifyBlockRest_ne_errWitness (existTxs : Tx → ExistStatus)
    (verifySelf : Tx → Option String) (getTx : List Nat → Except String Tx)
    (verifyDefer : Tx → Tx → Option String) (verifyRes : Option String)
    (txs : List Tx) :
    verifyBlockRest existTxs verifySelf getTx verifyDefer verifyRes txs ≠
      some PobError.errWitness := by
  unfold verifyBlockRest
  cases txs with
  | nil =>
    cases verifyRes <;> simp
  | cons t0 rest =>
    cases h : checkTxs existTxs verifySelf getTx verifyDefer rest with
    | some e =>
      have hne := checkTxs_ne_errWitness existTxs verifySelf getTx verifyDefer
        rest
      rw [h] at hne
      simp only [h]
      simpa using hne
    | none =>
      simp only [h]
      cases verifyRes <;> simp

/-- C2: for a non-negative slot number and a witness list whose length is
the configured number of witnesses, `witnessOfSlot` answers
`list[s mod N]` (and in particular answers, rather than panicking); the
witness of a nanosecond timestamp is the witness of slot
`t / (slotLength * 10^9)`; and `verifyBlock` (head verification passing)
returns the wrong-witness error exactly when the witness computed from the
block head's time differs from the head's witness field. -/
theorem witnessSchedule_verify (prop : StaticProperty) (slotLength s t : Int)
    (wl : List String) (headCheck : Option String)
    (existTxs : Tx → ExistStatus) (verifySelf : Tx → Option String)
    (getTx : List Nat → Except String Tx)
    (verifyDefer : Tx → Tx → Option String) (verifyRes : Option String)
    (blk : Block)
    (hs : 0 ≤ s) (ht : 0 ≤ t) (hsl : 0 < slotLength)
    (hwl : (wl.length : Int) = prop.NumberOfWitnesses) (hwl0 : wl ≠ [])
    (hpl : (prop.WitnessList.length : Int) = prop.NumberOfWitnesses)
    (hpl0 : prop.WitnessList ≠ [])
    (hbt : 0 ≤ blk.Head.Time) (hhead : headCheck = none) :
    witnessOfSlot prop s wl = wl.get? (s.toNat % wl.length)
    ∧ (witnessOfSlot prop s wl).isSome = true
    ∧ witnessOfNanoSec prop slotLength t wl =
        witnessOfSlot prop (t.tdiv (slotLength * second2nanosecond)) wl
    ∧ (verifyBlock prop slotLength headCheck existTxs verifySelf getTx
          verifyDefer verifyRes blk = some (some PobError.errWitness) ↔
        witnessOfNanoSec prop slotLength blk.Head.Time prop.WitnessList ≠
          some blk.Head.Witness) := by
  obtain ⟨h1, h2⟩ := witnessOfSlot_get prop s wl hs hwl hwl0
  refine ⟨h1, h2, ?_, ?_⟩
  · unfold witnessOfNanoSec witnessOfSec
    rw [tdiv_tdiv_of_nonneg t second2nanosecond slotLength ht
      (by norm_num [second2nanosecond]) hsl.le, mul_comm]
  · subst hhead
    have hnonneg : 0 ≤ (blk.Head.Time.tdiv second2nanosecond).tdiv slotLength :=
      Int.tdiv_nonneg (Int.tdiv_nonneg hbt (by norm_num [second2nanosecond]))
        hsl.le
    obtain ⟨w, hw⟩ := Option.isSome_iff_exists.mp
      (witnessOfSlot_get prop ((blk.Head.Time.tdiv second2nanosecond).tdiv
        slotLength) prop.WitnessList hnonneg hpl hpl0).2
    have hwn : witnessOfNanoSec prop slotLength blk.Head.Time
        prop.WitnessList = some w := hw
    rw [hwn]
    by_cases hww : w = blk.Head.Witness
    · subst hww
      have hne := verifyBlockRest_ne_errWitness existTxs verifySelf getTx
        verifyDefer verifyRes blk.Txs
      simp only [verifyBlock, hwn]
      rw [if_neg (by simp)]
      constructor
      · intro h
        exact absurd (Option.some.inj h) hne
      · intro h
        exact absurd rfl h
    · simp only [verifyBlock, hwn]
      rw [if_pos hww]
      constructor
      · intro _
        exact fun hc => hww (Option.some.inj hc)
      · intro _
        rfl

theorem subIn_singleton (n : BCNode) (x : Int) :
    subIn [n] x =
      if n.ConfirmUntil ≤ n.Number ∧ n.ConfirmUntil = x then 1 else 0 := by
  unfold subIn
  by_cases h1 : n.ConfirmUntil ≤ n.Number <;>
    by_cases h2 : n.ConfirmUntil = x <;>
      simp [List.countP_cons, h1, h2]

theorem cmapUpd_apply (m : Int → Int) (n : BCNode) (x : Int) :
    cmapUpd m n x = m x + subIn [n] x := by
  unfold cmapUpd
  rw [subIn_singleton]
  by_cases h1 : n.ConfirmUntil ≤ n.Number
  · rw [if_pos h1]
    by_cases h2 : x = n.ConfirmUntil
    · rw [if_pos h2, if_pos ⟨h1, h2.symm⟩]
    · rw [if_neg h2, if_neg (fun hc => h2 hc.2.symm)]
      ring
  · rw [if_neg h1, if_neg (fun hc => h1 hc.1)]
    ring

theorem countedIn_cons (n : BCNode) (l : List BCNode) :
    countedIn (n :: l) =
      countedIn l + (if n.ConfirmUntil ≤ n.Number then 1 else 0) := by
  unfold countedIn
  rw [List.countP_cons]
  by_cases h : n.ConfirmUntil ≤ n.Number <;> simp [h]

theorem subIn_cons (n : BCNode) (l : List BCNode) (x : Int) :
    subIn (n :: l) x = subIn l x + subIn [n] x := by
  unfold subIn
  rw [List.countP_cons, List.countP_cons, List.countP_nil]
  push_cast
  ring

theorem numAt_cons_zero (n : BCNode) (l : List BCNode) :
    numAt (n :: l) 0 = n.Number := rfl

theorem numAt_cons_succ (n : BCNode) (l : List BCNode) (k : Nat) :
    numAt (n :: l) (k + 1) = numAt l k := by
  unfold numAt
  rw [List.get?_cons_succ]

theorem runningCount_zero (m : Int → Int) (n : BCNode) (rest : List BCNode) :
    runningCount m (n :: rest) 0 =
      (if n.ConfirmUntil ≤ n.Number then 1 else 0) := by
  unfold runningCount
  rw [List.take_succ_cons, List.take_zero, countedIn_cons]
  simp [countedIn]

theorem runningCount_cons (m : Int → Int) (n : BCNode) (rest : List BCNode)
    (i : Nat) :
    runningCount m (n :: rest) (i + 1) =
      (if n.ConfirmUntil ≤ n.Number then 1 else 0)
        + runningCount (cmapUpd m n) rest i - cmapUpd m n n.Number := by
  have hf0 : m (numAt (n :: rest) 0) +
      subIn ((n :: rest).take (0 + 1)) (numAt (n :: rest) 0) =
      cmapUpd m n n.Number := by
    rw [numAt_cons_zero, List.take_succ_cons, List.take_zero, cmapUpd_apply]
  have hfk : ∀ k, m (numAt (n :: rest) (k + 1)) +
      subIn ((n :: rest).take (k + 1 + 1)) (numAt (n :: rest) (k + 1)) =
      cmapUpd m n (numAt rest k) + subIn (rest.take (k + 1)) (numAt rest k) := by
    intro k
    rw [numAt_cons_succ, List.take_succ_cons, subIn_cons, cmapUpd_apply]
    ring
  unfold runningCount
  rw [List.take_succ_cons, countedIn_cons, Finset.sum_range_succ',
    Finset.sum_congr rfl (fun k _ => hfk k), hf0]
  ring

theorem calculateConfirmAux_eq (limit : Int) (l : List BCNode) :
    ∀ (m : Int → Int) (c : Int),
      calculateConfirmAux limit l m c = confirmSpecG limit m c l := by
  induction l with
  | nil => intro m c; rfl
  | cons n rest ih =>
    intro m c
    have hc0 : c + runningCount m (n :: rest) 0 =
        (if n.ConfirmUntil ≤ n.Number then c + 1 else c) := by
      rw [runningCount_zero]
      split_ifs <;> ring
    unfold calculateConfirmAux confirmSpecG
    dsimp only
    rw [List.length_cons, List.range_succ_eq_map]
    by_cases h0 : limit ≤ (if n.ConfirmUntil ≤ n.Number then c + 1 else c)
    · rw [if_pos h0, List.find?_cons_of_pos _ (by simp [hc0, h0])]
      rfl
    · rw [if_neg h0, List.find?_cons_of_neg _ (by simp [hc0, h0]),
        List.find?_map]
      have hfun : ((fun i =>
          decide (limit ≤ c + runningCount m (n :: rest) i)) ∘ Nat.succ) =
          fun i => decide (limit ≤
            ((if n.ConfirmUntil ≤ n.Number then c + 1 else c) -
              cmapUpd m n n.Number) + runningCount (cmapUpd m n) rest i) := by
        funext i
        have harith : c + runningCount m (n :: rest) (i + 1) =
            ((if n.ConfirmUntil ≤ n.Number then c + 1 else c) -
              cmapUpd m n n.Number) + runningCount (cmapUpd m n) rest i := by
          rw [runningCount_cons]
          split_ifs <;> ring
        rw [Function.comp_apply, decide_eq_decide, harith]
      rw [hfun, ih (cmapUpd m n)
        ((if n.ConfirmUntil ≤ n.Number then c + 1 else c) -
          cmapUpd m n n.Number)]
      unfold confirmSpecG
      cases hfind : (List.range rest.length).find?
          (fun i => decide (limit ≤
            ((if n.ConfirmUntil ≤ n.Number then c + 1 else c) -
              cmapUpd m n n.Number) + runningCount (cmapUpd m n) rest i)) with
      | none => rfl
      | some i => simp [List.get?_cons_succ]

/-- C1: `calculateConfirm`, walking from a node down to the linked root
(the walked path, root excluded, is the list), returns the first walked
node at which the running count — the number of walked nodes so far whose
`ConfirmUntil` is at most their own number, minus, for every node already
descended past, the previously counted contributions whose `ConfirmUntil`
equals that node's number — reaches `NumberOfWitnesses*2/3 + 1`, and
returns none when the walk reaches the root without the count reaching
that limit. -/
theorem calculateConfirm_correct (numberOfWitnesses : Int)
    (path : List BCNode) :
    calculateConfirm numberOfWitnesses path =
      confirmSpec numberOfWitnesses path :=
  calculateConfirmAux_eq ((numberOfWitnesses * 2).tdiv 3 + 1) path
    (fun _ => 0) 0

/-- C9: in the `verifyBlock` transaction loop, the position-0 base tx is
exempt from the per-tx checks (the loop's result does not depend on it, and
a pending tx is likewise accepted outright), while a tx at position ≥ 1 is
rejected with the duplicate-tx error when found on the ancestor chain, and,
when not found pending, is rejected when its own signature check fails or,
for a deferred tx, when its referred tx cannot be fetched or does not
validate; any such rejection is the loop's verdict on the block. -/
theorem verifyBlock_base_exempt (existTxs : Tx → ExistStatus)
    (verifySelf : Tx → Option String) (getTx : List Nat → Except String Tx)
    (verifyDefer : Tx → Tx → Option String) (verifyRes : Option String)
    (t0 t0' t rt : Tx) (rest : List Tx) (e : String) :
    verifyBlockRest existTxs verifySelf getTx verifyDefer verifyRes
        (t0 :: rest) =
      verifyBlockRest existTxs verifySelf getTx verifyDefer verifyRes
        (t0' :: rest)
    ∧ (existTxs t = .FoundPending →
        checkTx existTxs verifySelf getTx verifyDefer t = none)
    ∧ (existTxs t = .FoundChain →
        checkTx existTxs verifySelf getTx verifyDefer t =
          some PobError.errTxDup)
    ∧ (existTxs t = .NotFound → verifySelf t = some e →
        checkTx existTxs verifySelf getTx verifyDefer t =
          some PobError.errTxSignature)
    ∧ (existTxs t = .NotFound → verifySelf t = none → t.IsDefer = true →
        getTx t.ReferredTx = .error e →
        checkTx existTxs verifySelf getTx verifyDefer t =
          some (PobError.getTxErr e))
    ∧ (existTxs t = .NotFound → verifySelf t = none → t.IsDefer = true →
        getTx t.ReferredTx = .ok rt → verifyDefer t rt = some e →
        checkTx existTxs verifySelf getTx verifyDefer t =
          some (PobError.deferErr e))
    ∧ (∀ pe, checkTxs existTxs verifySelf getTx verifyDefer rest = some pe →
        verifyBlockRest existTxs verifySelf getTx verifyDefer verifyRes
          (t0 :: rest) = some pe) := by
  refine ⟨rfl, ?_, ?_, ?_, ?_, ?_, ?_⟩
  · intro h
    simp [checkTx, h]
  · intro h
    simp [checkTx, h]
  · intro h1 h2
    simp [checkTx, h1, h2]
  · intro h1 h2 h3 h4
    simp [checkTx, h1, h2, h3, h4]
  · intro h1 h2 h3 h4 h5
    simp [checkTx, h1, h2, h3, h4, h5]
  · intro pe h
    simp [verifyBlockRest, h]

/-- Witness for the witness-schedule theorem at concrete inputs: one
witness "a", slot length 3, slot and time 0, and an empty block by "a". -/
theorem witnessSchedule_verify_witness :
    witnessOfSlot prop1 0 ["a"] = ["a"].get? ((0 : Int).toNat % ["a"].length)
    ∧ (witnessOfSlot prop1 0 ["a"]).isSome = true
    ∧ witnessOfNanoSec prop1 3 0 ["a"] =
        witnessOfSlot prop1 ((0 : Int).tdiv (3 * second2nanosecond)) ["a"]
    ∧ (verifyBlock prop1 3 none noExist noSelfErr noGetTx noDeferErr none
          blk1 = some (some PobError.errWitness) ↔
        witnessOfNanoSec prop1 3 blk1.Head.Time prop1.WitnessList ≠
          some blk1.Head.Witness) :=
  witnessSchedule_verify prop1 3 0 0 ["a"] none noExist noSelfErr noGetTx
    noDeferErr none blk1 (by decide) (by decide) (by decide) (by decide)
    (by decide) (by decide) (by decide) (by decide) rfl

/-- Witness for the RPC admission theorem at concrete inputs: a decoded
sample tx, a pool that answers `TimeError`, and chain state `0`. -/
theorem SendRawTx_admission_witness :
    ((∃ e, (SendRawTx (Except.ok sampleTx) rejectTimeErr emptyHash 0).1 =
        Except.error e) ↔
      (∃ e, (Except.ok sampleTx : Except String Tx) = Except.error e) ∨
        ∃ t, (Except.ok sampleTx : Except String Tx) = Except.ok t ∧
          (rejectTimeErr 0 t).1 ≠ TAddTx.Success)
    ∧ (∀ t, (Except.ok sampleTx : Except String Tx) = Except.ok t →
        (rejectTimeErr 0 t).1 ≠ TAddTx.Success →
        (SendRawTx (Except.ok sampleTx) rejectTimeErr emptyHash 0).1 =
          Except.error ("tx err:" ++ addTxKindName (rejectTimeErr 0 t).1))
    ∧ (∀ t, (Except.ok sampleTx : Except String Tx) = Except.ok t →
        (rejectTimeErr 0 t).1 = TAddTx.Success →
        (SendRawTx (Except.ok sampleTx) rejectTimeErr emptyHash 0).1 =
          Except.ok (emptyHash t))
    ∧ ((∃ e, (SendRawTx (Except.ok sampleTx) rejectTimeErr emptyHash 0).1 =
          Except.error e) →
        (SendRawTx (Except.ok sampleTx) rejectTimeErr emptyHash 0).2 = 0) :=
  SendRawTx_admission (Except.ok sampleTx) rejectTimeErr emptyHash 0
    (fun _ _ _ => rfl)

end GoIost
